import Mathlib

/-!
Verification development for the Ada release adapter
(`scripts/release/adapters/ada.py`).

Modelling conventions (shallow embedding):
  * A file's text content is the raw character list of the file (newlines
    included), matching what `read_text` returns after universal-newline
    translation.
  * The two regular expressions used by the adapter,
    `^key\s*=\s*"([^\x22]+)"` (used with `re.search` to read a field) and
    `^(\s*version\s*=\s*")[^\x22]+(")` (used with `re.sub` to rewrite the
    version field), both under `re.MULTILINE`, are embedded as
    deterministic scanners over the raw text.  `re.MULTILINE` only moves
    the `^` anchor: a match may start at offset 0 or right after any
    newline, and the scanners track that anchor state character by
    character.  Python's `\s` matches newlines and Unicode whitespace,
    and `[^\x22]+` matches newlines, so a single match may span lines;
    `isWS` below is the exact character set Python's `\s` matches for
    `str` patterns.  Greedy matching of `\s*` and `[^\x22]+` never needs
    backtracking in these patterns, because the construct after each
    quantifier can never match a character of the quantified class, so
    each pattern matches deterministically at a given start position.
  * `re.search` returns the match at the leftmost anchor that matches;
    `re.sub` scans left to right, replaces each anchored match, and
    resumes scanning right after the match (the character before the
    resume point is the closing quote, so the resume point is not an
    anchor).  The substitution scanner carries a fuel argument to make
    the jump over a match structurally terminating; the exported
    `subField` supplies fuel equal to the text length, which every scan
    step strictly decreases, so the fuel never runs out.
  * Filesystem state is explicit: a root metadata file is absent or
    present, and read/write faults (Python exceptions during I/O) are
    explicit booleans.  Trees are lists of paths (component lists).
  * `run_command` (defined in the out-of-scope base class / collaborator
    contract) is modelled as an oracle: a boolean outcome per invoked
    command, `false` standing for "returned None / failed to launch".
-/

set_option autoImplicit false

namespace AdaAdapter

abbrev Content := List Char

/-- Convert a string literal to its character-list representation. -/
def toL (s : String) : List Char := s.data

/--
Python's `\s` for `str` patterns: `[ \t\n\r\f\v]`, `\x1c`-`\x1f`, and the
Unicode whitespace characters (NEL, NBSP, OGHAM SPACE MARK, the U+2000
block, LINE/PARAGRAPH SEPARATOR, NARROW NO-BREAK SPACE, MEDIUM
MATHEMATICAL SPACE, IDEOGRAPHIC SPACE).
-/
def isWS (c : Char) : Bool :=
  ('\x09' ≤ c && c ≤ '\x0d') || c = ' ' || ('\x1c' ≤ c && c ≤ '\x1f') ||
  c = '\x85' || c = '\xa0' || c = '\u1680' ||
  ('\u2000' ≤ c && c ≤ '\u200a') ||
  c = '\u2028' || c = '\u2029' || c = '\u202f' || c = '\u205f' || c = '\u3000'

/-- Strip a literal prefix from a character list, returning the remainder. -/
def stripLit : List Char → List Char → Option (List Char)
  | [], l => some l
  | _ :: _, [] => none
  | c :: cs, x :: xs => if x = c then stripLit cs xs else none

/--
Match `key\s*=\s*"([^\x22]+)"` at the start of `rest` (the suffix of the
content beginning at an anchor).  On success returns `(p, v, t)` where
`p` is the text matched before the captured value (key, whitespace, `=`,
whitespace and the opening quote), `v` the captured value, and `t` the
remainder of the content after the closing quote; hence
`rest = p ++ v ++ '\x22' :: t`.  Whitespace runs and the value may
contain newlines, exactly as in Python.
-/
def matchFieldCore (key : List Char) (rest : List Char) :
    Option (List Char × List Char × List Char) :=
  match stripLit key rest with
  | none => none
  | some r1 =>
    match r1.dropWhile isWS with
    | '=' :: r3 =>
      match r3.dropWhile isWS with
      | '\x22' :: r5 =>
        match r5.takeWhile (fun c => c != '\x22'), r5.dropWhile (fun c => c != '\x22') with
        | [], _ => none
        | v1 :: vrest, '\x22' :: r7 =>
          some (key ++ r1.takeWhile isWS ++ '=' :: r3.takeWhile isWS ++ ['\x22'],
                v1 :: vrest, r7)
        | _ :: _, _ => none
      | _ => none
    | _ => none

/--
Match `(\s*key\s*=\s*")[^\x22]+(")` at an anchor: leading whitespace
(possibly spanning newlines) is allowed and belongs to the first group,
i.e. to the returned prefix.  This is the pattern `re.sub` uses in
`update_version` / `sync_versions`.
-/
def matchFieldLoose (key : List Char) (rest : List Char) :
    Option (List Char × List Char × List Char) :=
  match matchFieldCore key (rest.dropWhile isWS) with
  | none => none
  | some (p, v, t) => some (rest.takeWhile isWS ++ p, v, t)

/--
Match `key\s*=\s*"([^\x22]+)"` at an anchor (no leading whitespace) and
return the captured value.  This is the pattern `re.search` uses to read
the `name`, `website` and current `version` fields.
-/
def matchFieldStrict (key : List Char) (rest : List Char) : Option (List Char) :=
  match matchFieldCore key rest with
  | none => none
  | some (_, v, _) => some v

def versionKey : List Char := toL "version"

def nameKey : List Char := toL "name"

def websiteKey : List Char := toL "website"

/--
`re.search(pattern, content, re.MULTILINE)` for the anchored field
pattern: scan the content left to right, keeping track of whether the
current position is an anchor (offset 0, or right after a newline), and
return the captured value of the first anchored match.
-/
def searchFrom (key : List Char) : Bool → List Char → Option (List Char)
  | b, [] => cond b (matchFieldStrict key []) none
  | b, c :: cs =>
    match cond b (matchFieldStrict key (c :: cs)) none with
    | some v => some v
    | none => searchFrom key (c == '\n') cs

def searchField (key : List Char) (content : Content) : Option (List Char) :=
  searchFrom key true content

/--
`cleanUpTo key n b rest = true` states that within the first `n`
positions of `rest` (whose initial anchor state is `b`), no anchored
position matches the loose field pattern.  With `n = rest.length + 1` it
states that the pattern matches nowhere in `rest`.
-/
def cleanUpTo (key : List Char) : Nat → Bool → List Char → Bool
  | 0, _, _ => true
  | _ + 1, b, [] => cond b (matchFieldLoose key []).isNone true
  | n + 1, b, c :: cs =>
    cond b (matchFieldLoose key (c :: cs)).isNone true &&
      cleanUpTo key n (c == '\n') cs

/-- The anchor state after scanning past the characters of `u`, starting
from anchor state `b`. -/
def endAnchor : Bool → List Char → Bool
  | b, [] => b
  | _, c :: u => endAnchor (c == '\n') u

/--
One pass of `re.sub(r'^(\s*version\s*=\s*")[^\x22]+(")', repl, content,
flags=re.MULTILINE)`: scan left to right; at an anchored match emit
`group1 ++ version ++ '\x22'` and resume (off-anchor) after the closing
quote; otherwise copy one character and update the anchor state.  `fuel`
bounds the number of scan steps; every step consumes at least one
character, so `fuel = rest.length` always suffices.
-/
def subFromFuel (key version : List Char) : Nat → Bool → List Char → List Char
  | 0, _, rest => rest
  | fuel + 1, b, rest =>
    match cond b (matchFieldLoose key rest) none with
    | some (p, _, tail) =>
      p ++ version ++ '\x22' :: subFromFuel key version fuel false tail
    | none =>
      match rest with
      | [] => []
      | c :: cs => c :: subFromFuel key version fuel (c == '\n') cs

/-- The full version-field substitution applied by the adapter. -/
def subField (version : List Char) (content : Content) : Content :=
  subFromFuel versionKey version content.length true content

/-- Split a text into its lines (Python `str.split('\n')`). -/
def splitLines : List Char → List (List Char)
  | [] => [[]]
  | c :: cs =>
    match splitLines cs with
    | [] => [[]]
    | h :: t => if c = '\n' then [] :: h :: t else (c :: h) :: t

/-- Python `url[:-4] if url.endswith('.git') else url`. -/
def stripGitSuffix (u : List Char) : List Char :=
  if (toL ".git").isSuffixOf u then u.take (u.length - 4) else u

/--
State of the root metadata file `alire.toml`.  `readFails` models
`read_text` raising an exception; `writeFails` models `write_text`
raising (the file is then modelled as keeping its old content).
-/
inductive RootFile where
  | absent : RootFile
  | present (content : Content) (readFails writeFails : Bool) : RootFile
deriving DecidableEq

/-- The console diagnostics printed by `update_version`. -/
inductive Msg where
  | tomlNotFound : Msg
  | alreadyAtVersion : Msg
  | versionFieldNotFound : Msg
  | updatedRoot : Msg
  | ioError : Msg
deriving DecidableEq

structure UpdateResult where
  ok : Bool
  file : RootFile
  wrote : Bool
  msgs : List Msg
deriving DecidableEq

/--
`AdaReleaseAdapter.update_version`: rewrite the version field of the root
`alire.toml` to `version`.  Mirrors the control flow of the source:
missing file, read inside `try`, `re.search` for the current version,
global `re.sub`, no-change check, write, and `except` converting any I/O
exception to `False`.
-/
def update_version (version : List Char) (rf : RootFile) : UpdateResult :=
  match rf with
  | .absent => ⟨false, .absent, false, [.tomlNotFound]⟩
  | .present c r w =>
    if r then ⟨false, .present c r w, false, [.ioError]⟩
    else if searchField versionKey c = some version then
      ⟨true, .present c r w, false, [.alreadyAtVersion]⟩
    else if subField version c = c then
      ⟨false, .present c r w, false, [.versionFieldNotFound]⟩
    else if w then ⟨false, .present c r w, false, [.ioError]⟩
    else ⟨true, .present (subField version c) r w, true, [.updatedRoot]⟩

/-- Result of `AdaReleaseAdapter.load_project_info`: either the returned
pair, or a propagated exception (the method has no `try`/`except`). -/
inductive LoadResult where
  | ok (name url : List Char) : LoadResult
  | raised : LoadResult
deriving DecidableEq

/--
`AdaReleaseAdapter.load_project_info`: read `name` and `website` from the
root `alire.toml`; the name falls back to the project directory's base
name (`rootDirName`).  A successful field match always captures a
non-empty value, so Python's `if not project_name` fallback coincides
with the no-match fallback.  A read exception is NOT caught by the
source and propagates.
-/
def load_project_info (rootDirName : List Char) (rf : RootFile) : LoadResult :=
  match rf with
  | .absent => .ok rootDirName []
  | .present c r _ =>
    if r then .raised
    else
      .ok
        (match searchField nameKey c with
          | some n => n
          | none => rootDirName)
        (match searchField websiteKey c with
          | some u => stripGitSuffix u
          | none => [])

/-- A path relative to the project root, as a list of components. -/
abbrev Path := List (List Char)

def alireName : List Char := toL "alire.toml"

/--
`AdaReleaseAdapter.detect`: existence checks on the project tree, which is
modelled as the list of (relative) paths of the files it contains.
Checks, in the source's order: root `alire.toml`, `*.gpr` in the root,
`**/*.gpr` anywhere, `**/*.ads` or `**/*.adb` anywhere.
-/
def detect (files : List Path) : Bool :=
  if files.contains [alireName] then true
  else if files.any (fun p => p.length == 1 && (toL ".gpr").isSuffixOf (p.getLastD [])) then true
  else if files.any (fun p => (toL ".gpr").isSuffixOf (p.getLastD [])) then true
  else if files.any (fun p => (toL ".ads").isSuffixOf (p.getLastD []))
       || files.any (fun p => (toL ".adb").isSuffixOf (p.getLastD [])) then true
  else false

/-- State of one file in the tree walked by `sync_versions`: readable, or
raising on access (Python exception, caught per file). -/
inductive FState where
  | readable (content : Content) : FState
  | broken (content : Content) : FState
deriving DecidableEq

abbrev FS := List (Path × FState)

def pathExists (fs : FS) (p : Path) : Bool :=
  fs.any (fun pf => pf.1 == p)

def syncScript1 : Path := [toL "scripts", toL "release", toL "sync_versions.py"]

def syncScript2 : Path := [toL "scripts", toL "sync_versions.py"]

/-- `toml_file.parent != project_root` and the `rglob('alire.toml')`
name filter: a candidate for the fallback substitution loop. -/
def isSubToml (p : Path) : Bool :=
  p.getLastD [] == alireName && p.length != 1

def isBroken : FState → Bool
  | .readable _ => false
  | .broken _ => true

/-- One iteration of `sync_versions`' fallback loop on one file of the
tree: a non-root `alire.toml` gets the version substitution (a file whose
I/O raises is left unchanged, the exception being caught with a warning);
every other file is untouched. -/
def syncSubToml (version : List Char) (pf : Path × FState) : Path × FState :=
  if isSubToml pf.1 then
    match pf.2 with
    | .readable c => (pf.1, .readable (subField version c))
    | .broken _ => pf
  else pf

/--
`AdaReleaseAdapter.sync_versions`: if one of the two known sync-script
locations exists, delegate to it (`scriptOk` is the oracle for
`run_command(...) is not None`; the script's own file edits are outside
this model).  Otherwise run the in-process fallback over the tree and
return `True`.  Result: (returned boolean, resulting tree, number of
per-file warnings printed).
-/
def sync_versions (version : List Char) (fs : FS) (scriptOk : Bool) : Bool × FS × Nat :=
  if pathExists fs syncScript1 || pathExists fs syncScript2 then
    (scriptOk, fs, 0)
  else
    (true,
     fs.map (syncSubToml version),
     (fs.filter (fun pf => isSubToml pf.1 && isBroken pf.2)).length)

def genScript1 : Path := [toL "scripts", toL "release", toL "generate_version.py"]

def genScript2 : Path := [toL "scripts", toL "generate_version.py"]

/-- Python `str.capitalize`: first character upper-cased, rest
lower-cased. -/
def pyCapitalize : List Char → List Char
  | [] => []
  | c :: cs => c.toUpper :: cs.map Char.toLower

/-- Python `str.split('_')`. -/
def splitUnderscore : List Char → List (List Char)
  | [] => [[]]
  | c :: cs =>
    match splitUnderscore cs with
    | [] => [[]]
    | h :: t => if c = '_' then [] :: h :: t else (c :: h) :: t

/--
The Ada identifier-casing rule of `generate_version_file`: lower-case the
project name, special-case `hybrid_app_ada`, otherwise capitalize each
underscore-delimited segment and rejoin with underscores.
-/
def adaPackageName (projectName : List Char) : List Char :=
  let p := projectName.map Char.toLower
  if p = toL "hybrid_app_ada" then toL "Hybrid_App_Ada"
  else List.intercalate ['_'] ((splitUnderscore p).map pyCapitalize)

/--
`AdaReleaseAdapter.generate_version_file`: if neither known location of
`generate_version.py` exists, succeed as a no-op (second component
`none`: nothing invoked).  Otherwise derive the Ada package name and the
target file name and invoke the generator (`runOk` is the oracle for
`run_command(...) is not None`); the second component records the names
the invocation used.
-/
def generate_version_file (projectName : List Char) (fs : FS) (runOk : Bool) :
    Bool × Option (List Char × List Char) :=
  if pathExists fs genScript1 || pathExists fs genScript2 then
    (runOk,
     some (adaPackageName projectName,
           projectName.map Char.toLower ++ toL "-version.ads"))
  else (true, none)

/-- A command line handed to `run_command`. -/
abbrev Cmd := List (List Char)

def makeBuildCmd : Cmd := [toL "make", toL "build"]

def alrBuildCmd : Cmd := [toL "alr", toL "build"]

def makeTestCmd : Cmd := [toL "make", toL "test"]

def makeFormatCmd : Cmd := [toL "make", toL "format"]

def makeCleanCmd : Cmd := [toL "make", toL "clean"]

def cleanupScriptCmd : Cmd := [toL "python3", toL "scripts/cleanup_temp_files.py"]

/--
`AdaReleaseAdapter.run_build`: with a `Makefile`, run `make clean`
(result discarded) then `make build`; on its failure, or without a
`Makefile`, fall back to `alr build`; `False` only when every attempted
build fails.  `run` is the command oracle (`true` = success).
-/
def run_build (makefilePresent : Bool) (run : Cmd → Bool) : Bool :=
  if makefilePresent && run makeBuildCmd then true
  else if run alrBuildCmd then true
  else false

/-- `AdaReleaseAdapter.run_tests`: `make test` when a `Makefile` exists;
a missing target or a failing run is reported but not fatal. -/
def run_tests (makefilePresent : Bool) (run : Cmd → Bool) : Bool :=
  if makefilePresent && run makeTestCmd then true
  else true

/-- `AdaReleaseAdapter.run_format`: `make format` when a `Makefile`
exists; a missing target or a failing run is not fatal. -/
def run_format (makefilePresent : Bool) (run : Cmd → Bool) : Bool :=
  if makefilePresent && run makeFormatCmd then true
  else true

/-- `AdaReleaseAdapter.cleanup_temp_files`: cleanup script if present,
else `make clean` if a `Makefile` exists, else nothing; always succeeds. -/
def cleanup_temp_files (scriptPresent makefilePresent : Bool) (run : Cmd → Bool) : Bool :=
  if scriptPresent && run cleanupScriptCmd then true
  else if makefilePresent && run makeCleanCmd then true
  else true

/-- A sample project tree: a root `alire.toml`, two healthy subdirectory
`alire.toml` files, one whose I/O raises, and no sync script. -/
def tree0 : FS :=
  [([toL "alire.toml"], FState.readable (toL "version = \x221.0\x22\n")),
   ([toL "core", toL "alire.toml"], FState.readable (toL "version = \x221.0\x22\n")),
   ([toL "ui", toL "alire.toml"], FState.readable (toL "version = \x221.0\x22\n")),
   ([toL "bad", toL "alire.toml"], FState.broken (toL "version = \x221.0\x22\n"))]

/-! ### Supporting lemmas about the embedded pattern matching -/

theorem stripLit_eq (pat : List Char) :
    ∀ l r : List Char, stripLit pat l = some r → l = pat ++ r := by
  induction pat with
  | nil =>
    intro l r h
    simp only [stripLit, Option.some.injEq] at h
    simp [h]
  | cons c cs ih =>
    intro l r h
    cases l with
    | nil => simp [stripLit] at h
    | cons x xs =>
      simp only [stripLit] at h
      by_cases hx : x = c
      · rw [if_pos hx] at h
        subst hx
        simp [ih xs r h]
      · rw [if_neg hx] at h
        exact absurd h (by simp)

theorem matchFieldCore_eq (key : List Char) (rest p v t : List Char)
    (h : matchFieldCore key rest = some (p, v, t)) :
    rest = p ++ v ++ '\x22' :: t ∧ ∃ q, p = key ++ q := by
  unfold matchFieldCore at h
  split at h
  · exact absurd h (by simp)
  · next r1 hstrip =>
    split at h
    · next r3 hdw1 =>
      split at h
      · next r5 hdw2 =>
        split at h
        · exact absurd h (by simp)
        · next v1 vrest r7 htw hdw3 =>
          simp only [Option.some.injEq, Prod.mk.injEq] at h
          obtain ⟨hp, hv, ht⟩ := h
          subst hp; subst hv; subst ht
          constructor
          · have hl : rest = key ++ r1 := stripLit_eq key rest r1 hstrip
            have e1 : r1.takeWhile isWS ++ r1.dropWhile isWS = r1 :=
              List.takeWhile_append_dropWhile isWS r1
            have e2 : r3.takeWhile isWS ++ r3.dropWhile isWS = r3 :=
              List.takeWhile_append_dropWhile isWS r3
            have e3 : r5.takeWhile (fun c => c != '\x22') ++
                r5.dropWhile (fun c => c != '\x22') = r5 :=
              List.takeWhile_append_dropWhile _ r5
            rw [hl]
            conv_lhs => rw [← e1, hdw1]
            conv_lhs => rw [← e2, hdw2]
            conv_lhs => rw [← e3, htw, hdw3]
            simp
          · exact ⟨r1.takeWhile isWS ++ '=' :: r3.takeWhile isWS ++ ['\x22'], by simp⟩
        · exact absurd h (by simp)
      · exact absurd h (by simp)
    · exact absurd h (by simp)

theorem matchFieldLoose_parts (key rest p v t : List Char)
    (h : matchFieldLoose key rest = some (p, v, t)) :
    ∃ p0, p = rest.takeWhile isWS ++ p0 ∧
      matchFieldCore key (rest.dropWhile isWS) = some (p0, v, t) := by
  unfold matchFieldLoose at h
  split at h
  · exact absurd h (by simp)
  · next p0 v0 t0 hcore =>
    simp only [Option.some.injEq, Prod.mk.injEq] at h
    obtain ⟨hp, hv, ht⟩ := h
    subst hv; subst ht
    exact ⟨p0, hp.symm, hcore⟩

theorem matchFieldLoose_eq (key rest p v t : List Char)
    (h : matchFieldLoose key rest = some (p, v, t)) :
    rest = p ++ v ++ '\x22' :: t := by
  obtain ⟨p0, hp, hcore⟩ := matchFieldLoose_parts key rest p v t h
  have h1 := (matchFieldCore_eq key (rest.dropWhile isWS) p0 v t hcore).1
  conv_lhs => rw [← List.takeWhile_append_dropWhile isWS rest, h1]
  rw [hp]
  simp

theorem matchFieldStrict_loose (rest v : List Char)
    (h : matchFieldStrict versionKey rest = some v) :
    ∃ p t, matchFieldLoose versionKey rest = some (p, v, t) := by
  unfold matchFieldStrict at h
  split at h
  · exact absurd h (by simp)
  · next p0 v0 t0 hcore =>
    simp only [Option.some.injEq] at h
    subst h
    obtain ⟨hle, q, hq⟩ := matchFieldCore_eq versionKey rest p0 v0 t0 hcore
    have hv : ∃ xs, rest = 'v' :: xs := by
      rw [hle, hq, show versionKey = 'v' :: toL "ersion" from rfl]
      exact ⟨_, rfl⟩
    obtain ⟨xs, hxs⟩ := hv
    have htkw : rest.takeWhile isWS = [] := by
      rw [hxs, List.takeWhile_cons]
      simp [show isWS 'v' = false from rfl]
    have hdrw : rest.dropWhile isWS = rest := by
      rw [hxs, List.dropWhile_cons]
      simp [show isWS 'v' = false from rfl]
    exact ⟨p0, t0, by simp [matchFieldLoose, hdrw, hcore, htkw]⟩

theorem strict_none_of_loose_none (rest : List Char)
    (h : matchFieldLoose versionKey rest = none) :
    matchFieldStrict versionKey rest = none := by
  cases hs : matchFieldStrict versionKey rest with
  | none => rfl
  | some v =>
    obtain ⟨p, t, hl⟩ := matchFieldStrict_loose rest v hs
    rw [hl] at h
    exact absurd h (by simp)

theorem strict_none_of_ws_head (c : Char) (cs : List Char) (h : isWS c = true) :
    matchFieldStrict versionKey (c :: cs) = none := by
  have hcv : c ≠ 'v' := by
    intro hc
    subst hc
    exact absurd h (by decide)
  have hstrip : stripLit versionKey (c :: cs) = none := by
    rw [show versionKey = 'v' :: toL "ersion" from rfl]
    simp [stripLit, hcv]
  simp [matchFieldStrict, matchFieldCore, hstrip]

theorem searchFrom_strict_some (rest v : List Char)
    (h : matchFieldStrict versionKey rest = some v) :
    searchFrom versionKey true rest = some v := by
  cases rest with
  | nil =>
    rw [show matchFieldStrict versionKey [] = none from rfl] at h
    exact absurd h (by simp)
  | cons c cs => simp [searchFrom, h]

theorem searchFrom_step (c : Char) (cs : List Char) (b : Bool)
    (h : matchFieldStrict versionKey (c :: cs) = none) :
    searchFrom versionKey b (c :: cs) = searchFrom versionKey (c == '\n') cs := by
  cases b <;> simp [searchFrom, h]

theorem searchFrom_append (u : List Char) :
    ∀ (b : Bool) (rest : List Char),
      cleanUpTo versionKey u.length b (u ++ rest) = true →
      searchFrom versionKey b (u ++ rest) =
        searchFrom versionKey (endAnchor b u) rest := by
  induction u with
  | nil => intro b rest _; rfl
  | cons c u' ih =>
    intro b rest h
    have h' : (cond b (matchFieldLoose versionKey (c :: (u' ++ rest))).isNone true &&
        cleanUpTo versionKey u'.length (c == '\n') (u' ++ rest)) = true := h
    rw [Bool.and_eq_true] at h'
    obtain ⟨h1, h2⟩ := h'
    have hstep : searchFrom versionKey b (c :: (u' ++ rest)) =
        searchFrom versionKey (c == '\n') (u' ++ rest) := by
      cases b with
      | false => simp [searchFrom]
      | true =>
        refine searchFrom_step c (u' ++ rest) true (strict_none_of_loose_none _ ?_)
        simpa using h1
    rw [List.cons_append, hstep]
    exact ih (c == '\n') rest h2

theorem searchFrom_none : ∀ (rest : List Char) (b : Bool),
    cleanUpTo versionKey (rest.length + 1) b rest = true →
    searchFrom versionKey b rest = none := by
  intro rest
  induction rest with
  | nil =>
    intro b _
    cases b with
    | false => rfl
    | true => simp [searchFrom, show matchFieldStrict versionKey [] = none from rfl]
  | cons c cs ih =>
    intro b h
    have h' : (cond b (matchFieldLoose versionKey (c :: cs)).isNone true &&
        cleanUpTo versionKey (cs.length + 1) (c == '\n') cs) = true := h
    rw [Bool.and_eq_true] at h'
    obtain ⟨h1, h2⟩ := h'
    have hstep : searchFrom versionKey b (c :: cs) =
        searchFrom versionKey (c == '\n') cs := by
      cases b with
      | false => simp [searchFrom]
      | true =>
        refine searchFrom_step c cs true (strict_none_of_loose_none _ ?_)
        simpa using h1
    rw [hstep]
    exact ih (c == '\n') h2

theorem searchFrom_skipNl : ∀ (w : List Char), '\n' ∉ w → ∀ rest : List Char,
    searchFrom versionKey false (w ++ rest) = searchFrom versionKey false rest := by
  intro w
  induction w with
  | nil => intro _ rest; rfl
  | cons c w' ih =>
    intro hmem rest
    simp only [List.mem_cons, not_or] at hmem
    obtain ⟨hc, hw⟩ := hmem
    have hbeq : (c == '\n') = false := beq_eq_false_iff_ne.mpr (fun h => hc h.symm)
    rw [List.cons_append, show searchFrom versionKey false (c :: (w' ++ rest)) =
        searchFrom versionKey (c == '\n') (w' ++ rest) from by simp [searchFrom],
      hbeq]
    exact ih hw rest

theorem subFromFuel_id (key version : List Char) :
    ∀ (rest : List Char) (b : Bool) (fuel : Nat),
      rest.length ≤ fuel →
      cleanUpTo key (rest.length + 1) b rest = true →
      subFromFuel key version fuel b rest = rest := by
  intro rest
  induction rest with
  | nil =>
    intro b fuel _ hclean
    cases fuel with
    | zero => rfl
    | succ f =>
      cases b with
      | false => rfl
      | true =>
        have hnone : matchFieldLoose key [] = none := by
          have h1 : (matchFieldLoose key []).isNone = true := hclean
          exact Option.isNone_iff_eq_none.mp h1
        simp [subFromFuel, hnone]
  | cons c cs ih =>
    intro b fuel hlen hclean
    cases fuel with
    | zero =>
      rw [List.length_cons] at hlen
      exact absurd hlen (by omega)
    | succ f =>
      have h' : (cond b (matchFieldLoose key (c :: cs)).isNone true &&
          cleanUpTo key (cs.length + 1) (c == '\n') cs) = true := hclean
      rw [Bool.and_eq_true] at h'
      obtain ⟨h1, h2⟩ := h'
      have hmnone : cond b (matchFieldLoose key (c :: cs)) none = none := by
        cases b with
        | false => rfl
        | true =>
          have h3 : (matchFieldLoose key (c :: cs)).isNone = true := by simpa using h1
          simp [Option.isNone_iff_eq_none.mp h3]
      have hlen' : cs.length ≤ f := by
        rw [List.length_cons] at hlen
        omega
      have hstep : subFromFuel key version (f + 1) b (c :: cs) =
          c :: subFromFuel key version f (c == '\n') cs := by
        simp [subFromFuel, hmnone]
      rw [hstep, ih (c == '\n') f hlen' h2]

theorem subFromFuel_append (key version : List Char) :
    ∀ (u : List Char) (b : Bool) (fuel : Nat) (rest : List Char),
      u.length + rest.length ≤ fuel →
      cleanUpTo key u.length b (u ++ rest) = true →
      subFromFuel key version fuel b (u ++ rest) =
        u ++ subFromFuel key version (fuel - u.length) (endAnchor b u) rest := by
  intro u
  induction u with
  | nil => intro b fuel rest _ _; simp [endAnchor]
  | cons c u' ih =>
    intro b fuel rest hlen hclean
    cases fuel with
    | zero =>
      rw [List.length_cons] at hlen
      exact absurd hlen (by omega)
    | succ f =>
      have h' : (cond b (matchFieldLoose key (c :: (u' ++ rest))).isNone true &&
          cleanUpTo key u'.length (c == '\n') (u' ++ rest)) = true := hclean
      rw [Bool.and_eq_true] at h'
      obtain ⟨h1, h2⟩ := h'
      have hmnone : cond b (matchFieldLoose key (c :: (u' ++ rest))) none = none := by
        cases b with
        | false => rfl
        | true =>
          have h3 : (matchFieldLoose key (c :: (u' ++ rest))).isNone = true := by
            simpa using h1
          simp [Option.isNone_iff_eq_none.mp h3]
      have hlen' : u'.length + rest.length ≤ f := by
        rw [List.length_cons] at hlen
        omega
      have hstep : subFromFuel key version (f + 1) b (c :: (u' ++ rest)) =
          c :: subFromFuel key version f (c == '\n') (u' ++ rest) := by
        simp [subFromFuel, hmnone]
      rw [List.cons_append, hstep, ih (c == '\n') f rest hlen' h2]
      simp [List.length_cons, Nat.succ_sub_succ, endAnchor]

theorem subFromFuel_match (key version p v tail rest : List Char) (fuel : Nat)
    (hm : matchFieldLoose key rest = some (p, v, tail)) (hf : 1 ≤ fuel) :
    subFromFuel key version fuel true rest =
      p ++ version ++ '\x22' :: subFromFuel key version (fuel - 1) false tail := by
  cases fuel with
  | zero => exact absurd hf (by omega)
  | succ f => simp [subFromFuel, hm]

theorem endAnchor_last : ∀ (u : List Char) (b : Bool), u.getLast? = some '\n' →
    endAnchor b u = true := by
  intro u
  induction u with
  | nil => intro b h; exact absurd h (by simp)
  | cons c u' ih =>
    intro b h
    cases u' with
    | nil =>
      simp only [List.getLast?_singleton, Option.some.injEq] at h
      subst h
      rfl
    | cons d u'' =>
      rw [List.getLast?_cons_cons] at h
      exact ih (c == '\n') h

theorem stripGit_append (u : List Char) : stripGitSuffix (u ++ toL ".git") = u := by
  unfold stripGitSuffix
  rw [if_pos (List.isSuffixOf_iff_suffix.mpr ⟨u, rfl⟩)]
  have hlen : (u ++ toL ".git").length - 4 = u.length := by
    simp [List.length_append, show (toL ".git").length = 4 from rfl]
  rw [hlen]
  exact List.take_left u (toL ".git")

/--
Behaviour of the search scanner at the start of a match of the loose
pattern whose matched prefix and value are newline-free and whose
remainder matches nowhere: the strict search either reads exactly the
matched value (no leading whitespace) or finds nothing (the field is
indented).
-/
theorem searchFrom_at_match (m p x tail0 : List Char)
    (hm : matchFieldLoose versionKey m = some (p, x, tail0))
    (hpnl : '\n' ∉ p) (hxnl : '\n' ∉ x)
    (htail : cleanUpTo versionKey (tail0.length + 1) false tail0 = true) :
    searchFrom versionKey true m = some x ∨
      searchFrom versionKey true m = none := by
  obtain ⟨p0, hp, hcore⟩ := matchFieldLoose_parts versionKey m p x tail0 hm
  cases hws : m.takeWhile isWS with
  | nil =>
    left
    have hdw : m.dropWhile isWS = m := by
      cases m with
      | nil => rfl
      | cons a m2 =>
        rw [List.takeWhile_cons] at hws
        rw [List.dropWhile_cons]
        split at hws
        · simp at hws
        · next ha => simp [ha]
    rw [hdw] at hcore
    exact searchFrom_strict_some m x (by simp [matchFieldStrict, hcore])
  | cons w0 ws' =>
    right
    have hw0ws : isWS w0 = true := by
      have hmemtw : w0 ∈ m.takeWhile isWS := by
        rw [hws]
        exact List.mem_cons_self w0 ws'
      exact List.mem_takeWhile_imp hmemtw
    have hm' : m = w0 :: (ws' ++ m.dropWhile isWS) := by
      conv_lhs => rw [← List.takeWhile_append_dropWhile isWS m, hws]
      rfl
    have hdweq := (matchFieldCore_eq versionKey (m.dropWhile isWS) p0 x tail0 hcore).1
    have hp' : p = w0 :: (ws' ++ p0) := by
      rw [hp, hws]
      rfl
    have hpmem : w0 ≠ '\n' ∧ '\n' ∉ ws' ∧ '\n' ∉ p0 := by
      rw [hp'] at hpnl
      simp only [List.mem_cons, List.mem_append, not_or] at hpnl
      exact ⟨fun hh => hpnl.1 hh.symm, hpnl.2.1, hpnl.2.2⟩
    have hstrict : matchFieldStrict versionKey m = none := by
      rw [hm']
      exact strict_none_of_ws_head w0 (ws' ++ m.dropWhile isWS) hw0ws
    have hstep : searchFrom versionKey true m =
        searchFrom versionKey (w0 == '\n') (ws' ++ m.dropWhile isWS) := by
      conv_lhs => rw [hm']
      rw [hm'] at hstrict
      exact searchFrom_step w0 (ws' ++ m.dropWhile isWS) true hstrict
    have hbeq : (w0 == '\n') = false := beq_eq_false_iff_ne.mpr hpmem.1
    have hrest : ws' ++ m.dropWhile isWS = (ws' ++ p0 ++ x ++ ['\x22']) ++ tail0 := by
      rw [hdweq]
      simp
    have hnfree : '\n' ∉ ws' ++ p0 ++ x ++ ['\x22'] := by
      simp only [List.mem_append, List.mem_singleton, not_or]
      exact ⟨⟨⟨hpmem.2.1, hpmem.2.2⟩, hxnl⟩, by decide⟩
    rw [hstep, hbeq, hrest, searchFrom_skipNl _ hnfree tail0]
    exact searchFrom_none tail0 false htail

/-! ### Claim theorems -/

/--
C1 (counterexample): the claim quantifies over every root metadata file
containing a version field with value X.  A file with two version-field
lines, `version = "1.0"` and `version = "2.0"`, contains a version field
with value `1.0`; updating to `3.0` succeeds but the global `re.sub`
rewrites BOTH fields, so the second line is not byte-identical to the
input, contradicting "every other line of the file is byte-identical".
-/
theorem update_version_multi_field_cex :
    update_version (toL "3.0")
        (RootFile.present (toL "version = \x221.0\x22\nversion = \x222.0\x22")
          false false) =
      ⟨true,
       RootFile.present (toL "version = \x223.0\x22\nversion = \x223.0\x22")
         false false,
       true, [Msg.updatedRoot]⟩ ∧
    RootFile.present (toL "version = \x223.0\x22\nversion = \x223.0\x22")
        false false ≠
      RootFile.present (toL "version = \x223.0\x22\nversion = \x222.0\x22")
        false false := by
  decide

/--
C1 (amended): consider a root metadata file `u ++ m` in which the version
pattern matches exactly once (no anchored match begins within `u`, the
match begins right at the start of `m` — an anchor — and nothing matches
after it), the matched prefix and value contain no newline, and the
matched value X differs from the target Y.  Then `update_version` returns
true, writes, and the resulting file replaces exactly the bytes of X by Y:
everything before the matched value and everything after it is
byte-identical to the input.
-/
theorem update_version_unique_field (version u m p x tail0 : List Char)
    (hanchor : u = [] ∨ u.getLast? = some '\n')
    (hclean : cleanUpTo versionKey u.length true (u ++ m) = true)
    (hm : matchFieldLoose versionKey m = some (p, x, tail0))
    (hpnl : '\n' ∉ p)
    (hxnl : '\n' ∉ x)
    (htail : cleanUpTo versionKey (tail0.length + 1) false tail0 = true)
    (hx : x ≠ version) :
    u ++ m = u ++ p ++ x ++ '\x22' :: tail0 ∧
    update_version version (RootFile.present (u ++ m) false false) =
      ⟨true, RootFile.present (u ++ p ++ version ++ '\x22' :: tail0) false false,
       true, [Msg.updatedRoot]⟩ := by
  have hrec : m = p ++ x ++ '\x22' :: tail0 := matchFieldLoose_eq versionKey m p x tail0 hm
  have hend : endAnchor true u = true := by
    rcases hanchor with h | h
    · subst h; rfl
    · exact endAnchor_last u true h
  have hmlen : m.length = p.length + x.length + tail0.length + 1 := by
    rw [hrec]
    simp [List.length_append]
    omega
  -- the strict search cannot report the target version
  have hsearch : searchField versionKey (u ++ m) ≠ some version := by
    unfold searchField
    rw [searchFrom_append u true m hclean, hend]
    rcases searchFrom_at_match m p x tail0 hm hpnl hxnl htail with h | h
    · rw [h]
      intro hc
      exact hx (by injection hc)
    · rw [h]
      simp
  -- the substitution rewrites exactly the matched value
  have hsubeq : subField version (u ++ m) = u ++ p ++ version ++ '\x22' :: tail0 := by
    unfold subField
    rw [subFromFuel_append versionKey version u true ((u ++ m).length) m
        (by simp [List.length_append]) hclean, hend]
    have hflen : (u ++ m).length - u.length = m.length := by
      simp [List.length_append]
    rw [hflen,
      subFromFuel_match versionKey version p x tail0 m m.length hm (by omega),
      subFromFuel_id versionKey version tail0 false (m.length - 1) (by omega) htail]
    simp
  have hne : subField version (u ++ m) ≠ u ++ m := by
    rw [hsubeq]
    intro heq
    rw [hrec] at heq
    simp only [List.append_assoc] at heq
    have h1 := List.append_cancel_left heq
    have h2 := List.append_cancel_left h1
    exact hx (List.append_cancel_right h2).symm
  refine ⟨by rw [hrec]; simp [List.append_assoc], ?_⟩
  have hred : update_version version (RootFile.present (u ++ m) false false) =
      ⟨true, RootFile.present (subField version (u ++ m)) false false, true,
       [Msg.updatedRoot]⟩ := by
    simp [update_version, hsearch, hne]
  rw [hred, hsubeq]

/-- C1 (witness): a two-line file `name = "demo"` / `version = "0.1.0"`
updated to `0.2.0`. -/
theorem update_version_unique_field_witness :
    ((toL "name = \x22demo\x22\n" : List Char) = [] ∨
      (toL "name = \x22demo\x22\n").getLast? = some '\n') ∧
    cleanUpTo versionKey (toL "name = \x22demo\x22\n").length true
      (toL "name = \x22demo\x22\n" ++ toL "version = \x220.1.0\x22\n") = true ∧
    matchFieldLoose versionKey (toL "version = \x220.1.0\x22\n") =
      some (toL "version = \x22", toL "0.1.0", toL "\n") ∧
    '\n' ∉ toL "version = \x22" ∧
    '\n' ∉ toL "0.1.0" ∧
    cleanUpTo versionKey ((toL "\n").length + 1) false (toL "\n") = true ∧
    toL "0.1.0" ≠ toL "0.2.0" ∧
    (toL "name = \x22demo\x22\n" ++ toL "version = \x220.1.0\x22\n" =
       toL "name = \x22demo\x22\n" ++ toL "version = \x22" ++ toL "0.1.0" ++
         '\x22' :: toL "\n" ∧
     update_version (toL "0.2.0")
         (RootFile.present
           (toL "name = \x22demo\x22\n" ++ toL "version = \x220.1.0\x22\n")
           false false) =
       ⟨true,
        RootFile.present
          (toL "name = \x22demo\x22\n" ++ toL "version = \x22" ++ toL "0.2.0" ++
            '\x22' :: toL "\n")
          false false,
        true, [Msg.updatedRoot]⟩) :=
  ⟨by decide, by decide, by decide, by decide, by decide, by decide, by decide,
   update_version_unique_field (toL "0.2.0") (toL "name = \x22demo\x22\n")
     (toL "version = \x220.1.0\x22\n") (toL "version = \x22") (toL "0.1.0")
     (toL "\n") (by decide) (by decide) (by decide) (by decide) (by decide)
     (by decide) (by decide)⟩

/--
C2: when the version field the code reads (the first anchored match of
the expected `version = "..."` pattern, per `re.search` with
`re.MULTILINE`) already equals the target, `update_version` returns
success, performs no write, and the file bytes are unchanged.
-/
theorem update_version_idempotent (version : List Char) (c : Content) (w : Bool)
    (h : searchField versionKey c = some version) :
    update_version version (RootFile.present c false w) =
      ⟨true, RootFile.present c false w, false, [Msg.alreadyAtVersion]⟩ := by
  simp [update_version, h]

/-- C2 (witness): a file already at version `0.1.0`. -/
theorem update_version_idempotent_witness :
    searchField versionKey (toL "name = \x22demo\x22\nversion = \x220.1.0\x22\n") =
      some (toL "0.1.0") ∧
    update_version (toL "0.1.0")
        (RootFile.present (toL "name = \x22demo\x22\nversion = \x220.1.0\x22\n")
          false false) =
      ⟨true,
       RootFile.present (toL "name = \x22demo\x22\nversion = \x220.1.0\x22\n")
         false false,
       false, [Msg.alreadyAtVersion]⟩ :=
  ⟨by decide,
   update_version_idempotent (toL "0.1.0")
     (toL "name = \x22demo\x22\nversion = \x220.1.0\x22\n") false (by decide)⟩

/--
C3 (counterexample): the claim requires failure and no write whenever no
LINE of the file matches the version pattern.  But Python's `\s` matches
newlines, so on the file `version\n= "1.0"` — whose two lines,
`version` and `= "1.0"`, both fail the pattern — the code's `re.sub`
matches across the newline, rewrites the field, writes, and
`update_version` returns true.
-/
theorem update_version_cross_line_cex :
    ((splitLines (toL "version\n= \x221.0\x22")).all
        (fun l => (matchFieldLoose versionKey l).isNone)) = true ∧
    update_version (toL "2.0")
        (RootFile.present (toL "version\n= \x221.0\x22") false false) =
      ⟨true, RootFile.present (toL "version\n= \x222.0\x22") false false, true,
       [Msg.updatedRoot]⟩ := by
  decide

/--
C3 (amended): for a present, readable root metadata file in which the
version pattern matches at no position at all — not merely on no single
line, since a match may span newlines — `update_version` returns failure,
prints the "Version field not found" diagnostic, and performs no write.
-/
theorem update_version_no_match (version : List Char) (c : Content) (w : Bool)
    (h : cleanUpTo versionKey (c.length + 1) true c = true) :
    update_version version (RootFile.present c false w) =
      ⟨false, RootFile.present c false w, false, [Msg.versionFieldNotFound]⟩ := by
  have hs : searchField versionKey c = none := searchFrom_none c true h
  have hsub : subField version c = c :=
    subFromFuel_id versionKey version c true c.length (le_refl c.length) h
  simp [update_version, hs, hsub]

/-- C3 (witness): a file containing only a `name` field. -/
theorem update_version_no_match_witness :
    cleanUpTo versionKey ((toL "name = \x22demo\x22\n").length + 1) true
      (toL "name = \x22demo\x22\n") = true ∧
    update_version (toL "0.2.0")
        (RootFile.present (toL "name = \x22demo\x22\n") false false) =
      ⟨false, RootFile.present (toL "name = \x22demo\x22\n") false false, false,
       [Msg.versionFieldNotFound]⟩ :=
  ⟨by decide,
   update_version_no_match (toL "0.2.0") (toL "name = \x22demo\x22\n") false
     (by decide)⟩

/--
C4: `update_version` never propagates an exception: an absent file yields
a failure return with a diagnostic, a read exception is caught and
converted to a failure return with a diagnostic, and so is a write
exception.  (In the embedding the operation is a total function; each
fault case returns `ok = false` with a diagnostic message and no write.)
-/
theorem update_version_exception_boundary (version : List Char) (c : Content) (w : Bool)
    (hcur : searchField versionKey c ≠ some version)
    (hsub : subField version c ≠ c) :
    update_version version RootFile.absent =
      ⟨false, RootFile.absent, false, [Msg.tomlNotFound]⟩ ∧
    update_version version (RootFile.present c true w) =
      ⟨false, RootFile.present c true w, false, [Msg.ioError]⟩ ∧
    update_version version (RootFile.present c false true) =
      ⟨false, RootFile.present c false true, false, [Msg.ioError]⟩ := by
  refine ⟨rfl, rfl, ?_⟩
  simp [update_version, hcur, hsub]

/-- C4 (witness): a file at version `1.0`, target `9.9`. -/
theorem update_version_exception_boundary_witness :
    searchField versionKey (toL "version = \x221.0\x22\n") ≠ some (toL "9.9") ∧
    subField (toL "9.9") (toL "version = \x221.0\x22\n") ≠
      toL "version = \x221.0\x22\n" ∧
    (update_version (toL "9.9") RootFile.absent =
       ⟨false, RootFile.absent, false, [Msg.tomlNotFound]⟩ ∧
     update_version (toL "9.9")
         (RootFile.present (toL "version = \x221.0\x22\n") true false) =
       ⟨false, RootFile.present (toL "version = \x221.0\x22\n") true false, false,
        [Msg.ioError]⟩ ∧
     update_version (toL "9.9")
         (RootFile.present (toL "version = \x221.0\x22\n") false true) =
       ⟨false, RootFile.present (toL "version = \x221.0\x22\n") false true, false,
        [Msg.ioError]⟩) :=
  ⟨by decide, by decide,
   update_version_exception_boundary (toL "9.9") (toL "version = \x221.0\x22\n")
     false (by decide) (by decide)⟩

/--
C5 (counterexample): the claim fails on the code twice over.  (1) For a
readable file containing a `website` field but no parsable `name` field,
`load_project_info` returns the directory base name together with the
parsed website URL — not the empty string the claim requires.  (2) The
method wraps no `try`/`except` around its I/O, so an exception raised
while reading the file propagates instead of degrading to the fallback.
-/
theorem load_project_info_cex :
    load_project_info (toL "proj")
        (RootFile.present (toL "website = \x22https://e.com\x22\n") false false) =
      LoadResult.ok (toL "proj") (toL "https://e.com") ∧
    toL "https://e.com" ≠ ([] : List Char) ∧
    load_project_info (toL "proj")
        (RootFile.present (toL "name = \x22demo\x22\n") true false) =
      LoadResult.raised := by
  decide

/--
C5 (amended): when the metadata file is absent, or is present and
readable but contains neither a parsable `name` nor a parsable `website`
field, `load_project_info` returns the project root directory's base name
as the name and the empty string as the url; when only the `name` field
is unparsable, the url is the parsed website value with a trailing `.git`
stripped; and an exception raised while reading the file propagates to
the caller (it is not caught).
-/
theorem load_project_info_fallback (root c c2 u2 : List Char) (w : Bool)
    (hn : searchField nameKey c = none)
    (hw : searchField websiteKey c = none)
    (hn2 : searchField nameKey c2 = none)
    (hw2 : searchField websiteKey c2 = some (u2 ++ toL ".git")) :
    load_project_info root RootFile.absent = LoadResult.ok root [] ∧
    load_project_info root (RootFile.present c true w) = LoadResult.raised ∧
    load_project_info root (RootFile.present c false w) = LoadResult.ok root [] ∧
    load_project_info root (RootFile.present c2 false w) = LoadResult.ok root u2 := by
  refine ⟨rfl, rfl, by simp [load_project_info, hn, hw], ?_⟩
  simp [load_project_info, hn2, hw2, stripGit_append]

/-- C5 (witness): a file holding only a `version` field, and one holding
only a `.git`-suffixed `website` field. -/
theorem load_project_info_fallback_witness :
    searchField nameKey (toL "version = \x220.1.0\x22\n") = none ∧
    searchField websiteKey (toL "version = \x220.1.0\x22\n") = none ∧
    searchField nameKey (toL "website = \x22https://e.com.git\x22\n") = none ∧
    searchField websiteKey (toL "website = \x22https://e.com.git\x22\n") =
      some (toL "https://e.com" ++ toL ".git") ∧
    (load_project_info (toL "proj") RootFile.absent =
       LoadResult.ok (toL "proj") [] ∧
     load_project_info (toL "proj")
         (RootFile.present (toL "version = \x220.1.0\x22\n") true false) =
       LoadResult.raised ∧
     load_project_info (toL "proj")
         (RootFile.present (toL "version = \x220.1.0\x22\n") false false) =
       LoadResult.ok (toL "proj") [] ∧
     load_project_info (toL "proj")
         (RootFile.present (toL "website = \x22https://e.com.git\x22\n") false false) =
       LoadResult.ok (toL "proj") (toL "https://e.com")) :=
  ⟨by decide, by decide, by decide, by decide,
   load_project_info_fallback (toL "proj") (toL "version = \x220.1.0\x22\n")
     (toL "website = \x22https://e.com.git\x22\n") (toL "https://e.com") false
     (by decide) (by decide) (by decide) (by decide)⟩

/--
C6: `detect` returns true for a directory containing only the root
metadata file `alire.toml`, true for a directory containing only one
deeply nested `.ads`, `.adb` or `.gpr` source file, and false for an
empty directory.
-/
theorem detect_spec :
    detect [[toL "alire.toml"]] = true ∧
    detect [[toL "src", toL "deep", toL "nest", toL "pkg.ads"]] = true ∧
    detect [[toL "src", toL "deep", toL "nest", toL "body.adb"]] = true ∧
    detect [[toL "src", toL "deep", toL "nest", toL "proj.gpr"]] = true ∧
    detect [] = false := by
  decide

/--
C7: with the external sync script absent from both known locations,
`sync_versions` returns true, rewrites the version field of every
non-root `alire.toml` it can read, leaves every other file (root
`alire.toml`, non-metadata files, and files whose I/O raises) unchanged,
and prints one warning per file it failed to update.
-/
theorem sync_versions_fallback_spec (version : List Char) (fs : FS) (scriptOk : Bool)
    (h1 : pathExists fs syncScript1 = false)
    (h2 : pathExists fs syncScript2 = false) :
    (sync_versions version fs scriptOk).1 = true ∧
    (∀ p c, (p, FState.readable c) ∈ fs → isSubToml p = true →
        (p, FState.readable (subField version c)) ∈
          (sync_versions version fs scriptOk).2.1) ∧
    (∀ pf ∈ fs, isSubToml pf.1 = false →
        pf ∈ (sync_versions version fs scriptOk).2.1) ∧
    (∀ p c, (p, FState.broken c) ∈ fs →
        (p, FState.broken c) ∈ (sync_versions version fs scriptOk).2.1) ∧
    (sync_versions version fs scriptOk).2.2 =
      (fs.filter (fun pf => isSubToml pf.1 && isBroken pf.2)).length := by
  have hfb : sync_versions version fs scriptOk =
      (true, fs.map (syncSubToml version),
       (fs.filter (fun pf => isSubToml pf.1 && isBroken pf.2)).length) := by
    simp [sync_versions, h1, h2]
  rw [hfb]
  refine ⟨rfl, ?_, ?_, ?_, rfl⟩
  · intro p c hm hsub
    have hmem := List.mem_map_of_mem (syncSubToml version) hm
    have hval : syncSubToml version (p, FState.readable c) =
        (p, FState.readable (subField version c)) := by
      simp [syncSubToml, hsub]
    rw [hval] at hmem
    exact hmem
  · intro pf hm hsub
    have hmem := List.mem_map_of_mem (syncSubToml version) hm
    have hval : syncSubToml version pf = pf := by
      simp [syncSubToml, hsub]
    rw [hval] at hmem
    exact hmem
  · intro p c hm
    have hmem := List.mem_map_of_mem (syncSubToml version) hm
    have hval : syncSubToml version (p, FState.broken c) = (p, FState.broken c) := by
      by_cases hsub : isSubToml p
      · simp [syncSubToml, hsub]
      · simp [syncSubToml, hsub]
    rw [hval] at hmem
    exact hmem

/-- C7 (witness): a tree with one corrupted `alire.toml` among valid ones
— the others are still updated, one warning is counted, and the call
returns true. -/
theorem sync_versions_fallback_witness :
    pathExists tree0 syncScript1 = false ∧
    pathExists tree0 syncScript2 = false ∧
    ((sync_versions (toL "2.0") tree0 false).1 = true ∧
     (∀ p c, (p, FState.readable c) ∈ tree0 → isSubToml p = true →
         (p, FState.readable (subField (toL "2.0") c)) ∈
           (sync_versions (toL "2.0") tree0 false).2.1) ∧
     (∀ pf ∈ tree0, isSubToml pf.1 = false →
         pf ∈ (sync_versions (toL "2.0") tree0 false).2.1) ∧
     (∀ p c, (p, FState.broken c) ∈ tree0 →
         (p, FState.broken c) ∈ (sync_versions (toL "2.0") tree0 false).2.1) ∧
     (sync_versions (toL "2.0") tree0 false).2.2 =
       (tree0.filter (fun pf => isSubToml pf.1 && isBroken pf.2)).length) :=
  ⟨by decide, by decide,
   sync_versions_fallback_spec (toL "2.0") tree0 false (by decide) (by decide)⟩

/--
C8: the identifier-casing rule of `generate_version_file` maps
`foo_bar_baz` to `Foo_Bar_Baz` (each underscore-delimited segment
capitalized, underscores retained), and the irregular-override name
`hybrid_app_ada` maps to its fixed override string `Hybrid_App_Ada`
regardless of the input's casing.
-/
theorem adaPackageName_spec :
    adaPackageName (toL "foo_bar_baz") = toL "Foo_Bar_Baz" ∧
    adaPackageName (toL "hybrid_app_ada") = toL "Hybrid_App_Ada" ∧
    adaPackageName (toL "HYBRID_App_Ada") = toL "Hybrid_App_Ada" ∧
    adaPackageName (toL "hYbRiD_aPp_AdA") = toL "Hybrid_App_Ada" := by
  decide

/--
C9: when `generate_version.py` is absent from both of its known
locations, `generate_version_file` returns true without invoking
anything (the invocation component of the result is `none`).
-/
theorem generate_version_file_noop (projectName : List Char) (fs : FS) (runOk : Bool)
    (h1 : pathExists fs genScript1 = false)
    (h2 : pathExists fs genScript2 = false) :
    generate_version_file projectName fs runOk = (true, none) := by
  simp [generate_version_file, h1, h2]

/-- C9 (witness): a tree holding only the root metadata file. -/
theorem generate_version_file_noop_witness :
    pathExists [([toL "alire.toml"], FState.readable [])] genScript1 = false ∧
    pathExists [([toL "alire.toml"], FState.readable [])] genScript2 = false ∧
    generate_version_file (toL "demo") [([toL "alire.toml"], FState.readable [])]
        false = (true, none) :=
  ⟨by decide, by decide,
   generate_version_file_noop (toL "demo")
     [([toL "alire.toml"], FState.readable [])] false (by decide) (by decide)⟩

/--
C10: `run_tests`, `run_format` and `cleanup_temp_files` return true for
every command oracle and every combination of present/absent targets
(best effort, non-fatal), whereas `run_build` returns false when both
`make build` and the fallback `alr build` fail.
-/
theorem best_effort_and_build_failure (mk sp : Bool) (run : Cmd → Bool)
    (hb : run makeBuildCmd = false) (ha : run alrBuildCmd = false) :
    run_tests mk run = true ∧ run_format mk run = true ∧
    cleanup_temp_files sp mk run = true ∧ run_build mk run = false :=
  ⟨by simp [run_tests], by simp [run_format], by simp [cleanup_temp_files],
   by simp [run_build, hb, ha]⟩

/-- C10 (witness): an oracle on which every command fails. -/
theorem best_effort_and_build_failure_witness :
    (fun _ : Cmd => false) makeBuildCmd = false ∧
    (fun _ : Cmd => false) alrBuildCmd = false ∧
    (run_tests true (fun _ : Cmd => false) = true ∧
     run_format true (fun _ : Cmd => false) = true ∧
     cleanup_temp_files true true (fun _ : Cmd => false) = true ∧
     run_build true (fun _ : Cmd => false) = false) :=
  ⟨rfl, rfl, best_effort_and_build_failure true true (fun _ : Cmd => false) rfl rfl⟩

end AdaAdapter
